import Mathlib

/-!
Shallow embedding of the concurrent batch-transformation engine of the
rdkit-cli repository (src/include/progress.h, src/src/progress.cpp,
src/src/smiles.cpp, src/src/filters.cpp, src/src/conformers.cpp,
src/src/data.cpp), together with theorems settling the frozen claims.

Modelling conventions:
* Machine integers (`size_t`, `unsigned long`, `int`) are modelled as `Nat`
  with an explicit `% 2 ^ 64` at the single place where overflow matters
  (the `1UL << nCenters` shift in `generateStereoisomers`).
* C++ `double` values that can become non-finite are modelled by `FVal`
  (a finite rational, positive infinity, or NaN); the only places this
  matters are the divisions inside `ProgressTracker`.
* Exceptions are modelled with `Except String`; a C++ function that throws
  out of its own frame is a function returning `Except.error`.
* External RDKit routines (canonical-SMILES computation, stereo
  perception, embedding, force fields, SMILES parsing) and C-library
  routines (`std::stod`) are opaque collaborators of the engine; they are
  taken as function parameters of the embedded definitions, exactly as the
  spec declares them external interfaces.
* The OpenMP parallel-for loops are embedded as sequential folds over
  `[0, itemCount)`.  All the properties claimed are scheduling
  independent: each callback writes only its own index, and an exception
  escaping the loop body terminates the run under any schedule.
-/

/-- One domain unit: an optional structural payload (`mol`, absent after a
parse failure) plus named string attributes, as in `MoleculeRecord` of
src/include/data.h.  The payload type `μ` abstracts `RDKit::ROMol`. -/
structure MoleculeRecord (μ : Type) where
  mol : Option μ
  properties : List (String × String)
deriving DecidableEq, Repr

/-- `true` iff an `Except` value is a success, i.e. the wrapped call did
not throw. -/
def exceptOk {ε α : Type} : Except ε α → Bool
  | .ok _ => true
  | .error _ => false

/-- Loop of `parallelProcessWithProgress` (src/src/progress.cpp:19-28):
for each index the callback runs and then the tracker is advanced by one.
The callback may mutate captured state `σ`; a callback that throws is an
`Except.error`, which escapes the loop (the source has no handler around
`processFunction(i)`), aborting the run. -/
def ppwpGo {σ : Type} (f : Nat → σ → Except String σ) :
    List Nat → σ × Nat → Except String (σ × Nat)
  | [], acc => .ok acc
  | i :: rest, (s, c) =>
    match f i s with
    | .ok s2 => ppwpGo f rest (s2, c + 1)
    | .error e => .error e

/-- `parallelProcessWithProgress` (src/src/progress.cpp:12-31): runs the
callback over `[0, itemCount)` driving a progress counter; returns the
final callback state and the number of items processed, or the first
uncaught exception. -/
def parallelProcessWithProgress {σ : Type} (itemCount : Nat)
    (processFunction : Nat → σ → Except String σ) (init : σ) :
    Except String (σ × Nat) :=
  ppwpGo processFunction (List.range itemCount) (init, 0)

/-- The per-stage callback pattern used throughout src/src/smiles.cpp,
src/src/descriptors.cpp, etc.: the body of each item is wrapped in its own
`try { ... } catch { count/log a warning }`, so the function handed to the
executor never throws; the captured state counts the failures. -/
def stageCallbackWithBoundary (body : Nat → Except String Unit)
    (i : Nat) (failures : Nat) : Except String Nat :=
  match body i with
  | .ok _ => .ok failures
  | .error _ => .ok (failures + 1)

/-- Number of indices in `[0, n)` whose body fails. -/
def countedFailures (body : Nat → Except String Unit) (n : Nat) : Nat :=
  (List.range n).countP (fun i => !exceptOk (body i))

/-- Scenario A callback: 3 items, the body fails on index 1. -/
def scenarioABody : Nat → Except String Unit :=
  fun i => if i = 1 then .error "item 1 failed" else .ok ()

lemma ppwpGo_handled (body : Nat → Except String Unit) (l : List Nat)
    (f0 c0 : Nat) :
    ppwpGo (stageCallbackWithBoundary body) l (f0, c0)
      = .ok (f0 + l.countP (fun i => !exceptOk (body i)), c0 + l.length) := by
  induction l generalizing f0 c0 with
  | nil => simp [ppwpGo]
  | cons i rest ih =>
    by_cases h : exceptOk (body i) = true
    · have hb : ∃ u, body i = .ok u := by
        cases hbi : body i with
        | ok u => exact ⟨u, rfl⟩
        | error e => rw [hbi] at h; simp [exceptOk] at h
      obtain ⟨u, hu⟩ := hb
      simp only [ppwpGo, stageCallbackWithBoundary, hu]
      rw [ih]
      simp [List.countP_cons, hu, exceptOk]
      omega
    · have hb : ∃ e, body i = .error e := by
        cases hbi : body i with
        | ok u => rw [hbi] at h; simp [exceptOk] at h
        | error e => exact ⟨e, rfl⟩
      obtain ⟨e, he⟩ := hb
      simp only [ppwpGo, stageCallbackWithBoundary, he]
      rw [ih]
      simp [List.countP_cons, he, exceptOk]
      omega

/-! ## ProgressTracker (src/include/progress.h) -/

/-- Model of a C++ `double` value as produced by the tracker's divisions:
a finite rational, positive infinity (finite positive value divided by
zero under IEEE-754), or NaN (zero divided by zero; also stands for any
other non-finite outcome such as `inf - inf`).  Negative infinity never
reaches a comparison in the modelled code paths, so it is folded into
`nan` (both compare `false` against any threshold). -/
inductive FVal where
  | fin : ℚ → FVal
  | inf : FVal
  | nan : FVal
deriving DecidableEq, Repr

/-- `(double)current / total` for naturals, with IEEE zero-divisor
results. -/
def FVal.divByNat (current total : Nat) : FVal :=
  if total = 0 then (if current = 0 then .nan else .inf)
  else .fin ((current : ℚ) / (total : ℚ))

/-- Multiplication by the constant `100.0`. -/
def FVal.mul100 : FVal → FVal
  | .fin q => .fin (q * 100)
  | .inf => .inf
  | .nan => .nan

/-- IEEE subtraction restricted to the shapes the tracker produces
(`fin - inf = -inf` is folded into `nan`, see `FVal`). -/
def FVal.sub : FVal → FVal → FVal
  | .fin a, .fin b => .fin (a - b)
  | .inf, .fin _ => .inf
  | .fin _, .inf => .nan
  | .inf, .inf => .nan
  | .nan, _ => .nan
  | _, .nan => .nan

/-- IEEE comparison `x >= c` against a finite threshold: `inf >= c` is
true, any NaN comparison is false. -/
def FVal.geQ : FVal → ℚ → Bool
  | .fin a, c => decide (c ≤ a)
  | .inf, _ => true
  | .nan, _ => false

/-- `true` iff the value is finite, i.e. no zero-divisor division occurred
while computing it. -/
def FVal.isFinite : FVal → Bool
  | .fin _ => true
  | _ => false

/-- `minProgressStep` (src/include/progress.h:23). -/
def minProgressStep : ℚ := 1 / 100

/-- `ProgressTracker::formatTime` (src/include/progress.h:78-93), on the
whole-second count obtained by truncating the elapsed seconds. -/
def formatTime (seconds : Nat) : String :=
  let hrs := seconds / 3600
  let mins := (seconds % 3600) / 60
  let secs := seconds % 60
  (if hrs > 0 then toString hrs ++ "h " else "")
    ++ (if mins > 0 || hrs > 0 then toString mins ++ "m " else "")
    ++ toString secs ++ "s"

/-- State of `ProgressTracker` (src/include/progress.h:12-29).  The wall
clock (`startTime`) is external input; the elapsed time is passed to the
operations that read it. -/
structure ProgressTracker where
  taskName : String
  totalItems : Nat
  processedItems : Nat := 0
  lastReportedPercentage : FVal := .fin (-1)
  verbose : Bool := false
deriving DecidableEq, Repr

/-- The percentage computed by `update`
(src/include/progress.h:35): `(double)current / totalItems * 100.0`. -/
def ProgressTracker.percentageOf (t : ProgressTracker) (current : Nat) : FVal :=
  (FVal.divByNat current t.totalItems).mul100

/-- `current / elapsed` (items per second), IEEE semantics when no time
has elapsed yet. -/
def FVal.divNatByQ (current : Nat) (elapsed : ℚ) : FVal :=
  if elapsed = 0 then (if current = 0 then .nan else .inf)
  else .fin ((current : ℚ) / elapsed)

/-- `remaining / itemsPerSecond` (ETA seconds); a finite remainder divided
by an infinite rate is zero. -/
def FVal.divQByF (a : ℚ) : FVal → FVal
  | .fin q => if q = 0 then (if a = 0 then .nan else .inf) else .fin (a / q)
  | .inf => .fin 0
  | .nan => .nan

/-- Decimal rendering of a possibly non-finite double.  The iostream
fixed-precision digit formatting is abstracted to the exact rational. -/
def FVal.render : FVal → String
  | .fin q => toString q
  | .inf => "inf"
  | .nan => "nan"

/-- ETA rendering: `formatTime(etaSeconds)` truncates the double to whole
seconds (src/include/progress.h:55,79). -/
def FVal.etaRender : FVal → String
  | .fin q => formatTime q.floor.toNat
  | .inf => "inf"
  | .nan => "nan"

/-- The line printed by `update` (src/include/progress.h:50-60): verbose
adds current/total, throughput and ETA. -/
def progressLine (taskName : String) (percentage : FVal) (verbose : Bool)
    (current total : Nat) (itemsPerSecond eta : FVal) : String :=
  if verbose then
    "\r-- " ++ taskName ++ " [" ++ percentage.render ++ "%] "
      ++ toString current ++ "/" ++ toString total
      ++ " - " ++ itemsPerSecond.render ++ " items/s - ETA: " ++ eta.etaRender
  else
    "\r-- " ++ taskName ++ " [" ++ percentage.render ++ "%]"

/-- `ProgressTracker::update` (src/include/progress.h:31-65): adds `count`
to the processed counter, computes the percentage, and if it moved by at
least `minProgressStep` past the last reported one, prints a progress line
and records the percentage.  The C++ double-checked lock re-tests the same
condition after acquiring the mutex; sequentially the two tests coincide,
so the model tests once.  Returns the new state and the printed line, if
any. -/
def ProgressTracker.update (t : ProgressTracker) (count : Nat)
    (elapsedSeconds : ℚ) : ProgressTracker × Option String :=
  let current := t.processedItems + count
  let percentage := t.percentageOf current
  if (percentage.sub t.lastReportedPercentage).geQ minProgressStep then
    let itemsPerSecond := FVal.divNatByQ current elapsedSeconds
    let eta := FVal.divQByF ((t.totalItems - current : Nat) : ℚ) itemsPerSecond
    ({ t with processedItems := current, lastReportedPercentage := percentage },
      some (progressLine t.taskName percentage t.verbose current t.totalItems
        itemsPerSecond eta))
  else
    ({ t with processedItems := current }, none)

/-- `ProgressTracker::finish` (src/include/progress.h:67-75): prints the
terminal 100% line with the elapsed time; it reads neither `totalItems`
nor `processedItems` and performs no division by them. -/
def ProgressTracker.finish (t : ProgressTracker) (elapsedSeconds : Nat) : String :=
  "\r-- " ++ t.taskName ++ " [100.00%] - Completed in "
    ++ formatTime elapsedSeconds ++ "\n"

/-! ## Claim C1: failure isolation of the parallel executor -/

/-- C1, counterexample.  The claim states that `parallelProcessWithProgress`
itself catches a callback exception at the item boundary so that, for 3
items with the callback failing on index 1, the stage completes with
failure count 1.  The source executor (src/src/progress.cpp:19-28) has no
handler around `processFunction(i)`: the exception escapes the loop and
the run aborts instead of completing. -/
theorem C1_counterexample :
    parallelProcessWithProgress 3 (fun i (_ : Unit) => scenarioABody i) ()
        = .error "item 1 failed"
    ∧ parallelProcessWithProgress 3 (fun i (_ : Unit) => scenarioABody i) ()
        ≠ .ok ((), 3) := by
  constructor
  · rfl
  · intro h
    exact Except.noConfusion
      ((show parallelProcessWithProgress 3 (fun i (_ : Unit) => scenarioABody i) ()
          = Except.error "item 1 failed" from rfl).symm.trans h)

/-- C1, amended.  The failure boundary lives one level down: every stage
callback in the repository wraps its own body in try/catch and counts the
failure (`stageCallbackWithBoundary`).  With callbacks of that shape the
executor never aborts: all `n` items are attempted, the run returns
normally, and the captured state holds the failure count; in Scenario A
(3 items, body failing on index 1) the run completes with failure count 1
and both other items processed. -/
theorem C1_theorem :
    (∀ (body : Nat → Except String Unit) (n : Nat),
        parallelProcessWithProgress n (stageCallbackWithBoundary body) 0
          = .ok (countedFailures body n, n))
    ∧ parallelProcessWithProgress 3 (stageCallbackWithBoundary scenarioABody) 0
        = .ok (1, 3) := by
  constructor
  · intro body n
    unfold parallelProcessWithProgress countedFailures
    rw [ppwpGo_handled]
    simp
  · rfl

/-! ## Claim C4: ProgressTracker with total == 0 -/

/-- C4, counterexample.  The claim states that with `total == 0` every
`update` completes *without dividing by zero*.  In the source
(src/include/progress.h:35) `update` unconditionally computes
`current / totalItems`; with `totalItems == 0` and one processed item this
is a division by zero (IEEE: the percentage becomes non-finite), which the
tracker then stores and prints. -/
theorem C4_counterexample :
    ((ProgressTracker.mk "Loading CSV file" 0 0 (.fin (-1)) false).percentageOf 1).isFinite
        = false
    ∧ ((ProgressTracker.mk "Loading CSV file" 0 0 (.fin (-1)) false).update 1 1).1.lastReportedPercentage
        = FVal.inf
    ∧ ((ProgressTracker.mk "Loading CSV file" 0 0 (.fin (-1)) false).update 1 1).2.isSome
        = true := by
  refine ⟨rfl, rfl, rfl⟩

/-- C4, amended.  The tracker never aborts, but it does not avoid the zero
division: (1) with `totalItems ≠ 0` the computed percentage is finite (no
division by zero); (2) with `totalItems = 0` and a positive processed
count the division by zero occurs and yields a non-finite (infinite)
percentage — `update` still completes; (3) `update` always returns and
advances the processed counter by exactly `count`; (4) `finish` performs
no division by the totals and prints the completion line for every
tracker, including one with `totalItems = 0`. -/
theorem C4_theorem :
    (∀ (t : ProgressTracker) (current : Nat),
        t.totalItems ≠ 0 → (t.percentageOf current).isFinite = true)
    ∧ (∀ (t : ProgressTracker) (count : Nat),
        t.totalItems = 0 → 0 < t.processedItems + count →
          t.percentageOf (t.processedItems + count) = FVal.inf)
    ∧ (∀ (t : ProgressTracker) (count : Nat) (elapsed : ℚ),
        ((t.update count elapsed).1).processedItems = t.processedItems + count)
    ∧ (∀ (t : ProgressTracker) (elapsed : Nat),
        t.finish elapsed
          = "\r-- " ++ t.taskName ++ " [100.00%] - Completed in "
              ++ formatTime elapsed ++ "\n") := by
  refine ⟨?_, ?_, ?_, ?_⟩
  · intro t current h
    simp [ProgressTracker.percentageOf, FVal.divByNat, h, FVal.mul100, FVal.isFinite]
  · intro t count h hp
    have hne : t.processedItems + count ≠ 0 := Nat.pos_iff_ne_zero.mp hp
    simp [ProgressTracker.percentageOf, FVal.divByNat, h, hne, FVal.mul100]
  · intro t count elapsed
    unfold ProgressTracker.update
    dsimp only
    split <;> rfl
  · intro t e
    rfl

/-- C4, witness: the amended theorem applied at concrete trackers. -/
theorem C4_witness :
    ((ProgressTracker.mk "t" 5 0 (.fin (-1)) false).percentageOf 1).isFinite = true
    ∧ (ProgressTracker.mk "t" 0 0 (.fin (-1)) false).percentageOf (0 + 1) = FVal.inf
    ∧ (((ProgressTracker.mk "t" 0 0 (.fin (-1)) false).update 1 1).1).processedItems = 0 + 1
    ∧ (ProgressTracker.mk "t" 0 0 (.fin (-1)) false).finish 0
        = "\r-- " ++ "t" ++ " [100.00%] - Completed in " ++ formatTime 0 ++ "\n" :=
  ⟨C4_theorem.1 _ 1 (by decide),
   C4_theorem.2.1 _ 1 rfl (by decide),
   C4_theorem.2.2.1 _ 1 1,
   C4_theorem.2.2.2 _ 0⟩

/-! ## SmilesHandler::deduplicate (src/src/smiles.cpp:204-273) -/

/-- Pass 1 slot value (src/src/smiles.cpp:219-228): the canonical SMILES
of the record's molecule; a missing molecule or a throwing `MolToSmiles`
leaves the slot at its initial empty string.  `molToSmiles` is the
external RDKit canonicalizer (`none` = throws). -/
def canonKey {μ : Type} (molToSmiles : μ → Option String)
    (r : MoleculeRecord μ) : String :=
  match r.mol with
  | none => ""
  | some m =>
    match molToSmiles m with
    | some s => s
    | none => ""

/-- Pass 2 (src/src/smiles.cpp:234-243): scanning indices in increasing
order, a record is flagged kept iff its key is non-empty and absent from
the `firstOccurrence` map; a kept key is inserted into the map. -/
def dedupKeepFlags (seen : List String) : List String → List Bool
  | [] => []
  | k :: ks =>
    if k ≠ "" ∧ k ∉ seen then true :: dedupKeepFlags (k :: seen) ks
    else false :: dedupKeepFlags seen ks

/-- `uniqueCount` (src/src/smiles.cpp:246-251): number of kept flags. -/
def dedupUniqueCount {μ : Type} (molToSmiles : μ → Option String)
    (ds : List (MoleculeRecord μ)) : Nat :=
  (dedupKeepFlags [] (ds.map (canonKey molToSmiles))).count true

/-- Pass 3 (src/src/smiles.cpp:262-267): walk the indices in order and
move the flagged records into the new dataset. -/
def maskFilter {α : Type} : List α → List Bool → List α
  | [], _ => []
  | _ :: _, [] => []
  | x :: xs, b :: bs => if b then x :: maskFilter xs bs else maskFilter xs bs

/-- `SmilesHandler::deduplicate` (src/src/smiles.cpp:204-273): canonical
keys, first-occurrence flags, then the order-preserving gather; the result
replaces the dataset. -/
def SmilesHandler.deduplicate {μ : Type} (molToSmiles : μ → Option String)
    (dataset : List (MoleculeRecord μ)) : List (MoleculeRecord μ) :=
  maskFilter dataset (dedupKeepFlags [] (dataset.map (canonKey molToSmiles)))

/-- Stated from the spec's words for C2 (refinement side): a record is
kept iff its key is the first occurrence of that key when scanning indices
in increasing order; `pre` holds the keys of all earlier indices. -/
def specKeepFirstOccurrence (pre : List String) : List String → List Bool
  | [] => []
  | k :: ks => decide (k ∉ pre) :: specKeepFirstOccurrence (pre ++ [k]) ks

/-- Scenario B canonical keys. -/
def scenarioBKeys : List String := ["A", "B", "A", "C", "B"]

/-- Scenario B dataset: five records whose payloads canonicalize to the
Scenario B keys. -/
def scenarioBDataset : List (MoleculeRecord Nat) :=
  (List.range 5).map (fun i => ⟨some i, []⟩)

/-- Scenario B canonicalizer. -/
def scenarioBCanon : Nat → Option String := fun i => some (scenarioBKeys.getD i "")

lemma maskFilter_sublist {α : Type} (xs : List α) (bs : List Bool) :
    (maskFilter xs bs).Sublist xs := by
  induction xs generalizing bs with
  | nil => simp [maskFilter]
  | cons x xs ih =>
    cases bs with
    | nil => simp [maskFilter]
    | cons b bs =>
      by_cases hb : b = true
      · simpa [maskFilter, hb] using (ih bs).cons₂ x
      · simpa [maskFilter, hb] using (ih bs).cons x

lemma dedupKeepFlags_length (seen ks : List String) :
    (dedupKeepFlags seen ks).length = ks.length := by
  induction ks generalizing seen with
  | nil => rfl
  | cons k ks ih =>
    by_cases h : k ≠ "" ∧ k ∉ seen
    · simp [dedupKeepFlags, h, ih]
    · simp [dedupKeepFlags, h, ih]

lemma maskFilter_length_eq_count {α : Type} (xs : List α) (bs : List Bool)
    (h : xs.length = bs.length) :
    (maskFilter xs bs).length = bs.count true := by
  induction xs generalizing bs with
  | nil =>
    cases bs with
    | nil => rfl
    | cons b bs => simp at h
  | cons x xs ih =>
    cases bs with
    | nil => simp at h
    | cons b bs =>
      have h2 : xs.length = bs.length := by simpa using h
      by_cases hb : b = true
      · simp [maskFilter, hb, ih bs h2, List.count_cons]
      · simp [maskFilter, hb, ih bs h2, List.count_cons]

lemma dedupKeepFlags_eq_spec (ks : List String) (seen pre : List String)
    (hv : ∀ k ∈ ks, k ≠ "") (hmem : ∀ x, x ∈ seen ↔ x ∈ pre) :
    dedupKeepFlags seen ks = specKeepFirstOccurrence pre ks := by
  induction ks generalizing seen pre with
  | nil => rfl
  | cons k ks ih =>
    have hk : k ≠ "" := hv k (by simp)
    have hv2 : ∀ k ∈ ks, k ≠ "" := fun k hkk => hv k (by simp [hkk])
    by_cases hs : k ∈ seen
    · have hp : k ∈ pre := (hmem k).mp hs
      have hmem2 : ∀ x, x ∈ seen ↔ x ∈ pre ++ [k] := by
        intro x
        rw [List.mem_append, List.mem_singleton, ← hmem x]
        constructor
        · exact Or.inl
        · rintro (hx | rfl)
          · exact hx
          · exact hs
      simp [dedupKeepFlags, specKeepFirstOccurrence, hs, hp, ih _ _ hv2 hmem2]
    · have hp : k ∉ pre := fun hx => hs ((hmem k).mpr hx)
      have hmem2 : ∀ x, x ∈ k :: seen ↔ x ∈ pre ++ [k] := by
        intro x
        rw [List.mem_cons, List.mem_append, List.mem_singleton, ← hmem x]
        constructor
        · rintro (rfl | hx)
          · exact Or.inr rfl
          · exact Or.inl hx
        · rintro (hx | rfl)
          · exact Or.inr hx
          · exact Or.inl rfl
      simp [dedupKeepFlags, specKeepFirstOccurrence, hs, hp, hk, ih _ _ hv2 hmem2]

lemma maskFilter_map {α β : Type} (f : α → β) (xs : List α) (bs : List Bool) :
    (maskFilter xs bs).map f = maskFilter (xs.map f) bs := by
  induction xs generalizing bs with
  | nil => simp [maskFilter]
  | cons x xs ih =>
    cases bs with
    | nil => simp [maskFilter]
    | cons b bs =>
      by_cases hb : b = true
      · simp [maskFilter, hb, ih]
      · simp [maskFilter, hb, ih]

lemma dedup_kept_keys (ks : List String) (seen : List String) :
    (∀ k ∈ maskFilter ks (dedupKeepFlags seen ks), k ≠ "" ∧ k ∉ seen)
    ∧ (maskFilter ks (dedupKeepFlags seen ks)).Nodup := by
  induction ks generalizing seen with
  | nil => simp [maskFilter, dedupKeepFlags]
  | cons k ks ih =>
    by_cases h : k ≠ "" ∧ k ∉ seen
    · have hred : maskFilter (k :: ks) (dedupKeepFlags seen (k :: ks))
          = k :: maskFilter ks (dedupKeepFlags (k :: seen) ks) := by
        simp [dedupKeepFlags, h, maskFilter]
      rw [hred]
      obtain ⟨ihmem, ihnd⟩ := ih (k :: seen)
      constructor
      · intro k2 hk2
        rcases List.mem_cons.mp hk2 with rfl | hk2
        · exact h
        · have h2 := ihmem k2 hk2
          exact ⟨h2.1, fun hx => h2.2 (List.mem_cons_of_mem _ hx)⟩
      · refine List.nodup_cons.mpr ⟨?_, ihnd⟩
        intro hx
        exact (ihmem k hx).2 (List.mem_cons_self _ _)
    · have hred : maskFilter (k :: ks) (dedupKeepFlags seen (k :: ks))
          = maskFilter ks (dedupKeepFlags seen ks) := by
        simp [dedupKeepFlags, h, maskFilter]
      rw [hred]
      exact ih seen

lemma dedupKeepFlags_all_true (ks : List String) (seen : List String)
    (hv : ∀ k ∈ ks, k ≠ "" ∧ k ∉ seen) (hnd : ks.Nodup) :
    dedupKeepFlags seen ks = List.replicate ks.length true := by
  induction ks generalizing seen with
  | nil => rfl
  | cons k ks ih =>
    have hk := hv k (by simp)
    have hv2 : ∀ k2 ∈ ks, k2 ≠ "" ∧ k2 ∉ k :: seen := by
      intro k2 hk2
      have h2 := hv k2 (by simp [hk2])
      refine ⟨h2.1, ?_⟩
      intro hx
      rcases List.mem_cons.mp hx with rfl | hx
      · exact absurd hk2 (List.nodup_cons.mp hnd).1
      · exact h2.2 hx
    simp [dedupKeepFlags, hk.1, hk.2, List.replicate_succ,
      ih _ hv2 (List.nodup_cons.mp hnd).2]

lemma maskFilter_replicate_true {α : Type} (xs : List α) :
    maskFilter xs (List.replicate xs.length true) = xs := by
  induction xs with
  | nil => rfl
  | cons x xs ih => simp [maskFilter, List.replicate_succ, ih]

/-- C2.  On every dataset all of whose records have a valid canonical key
(the canonical SMILES; records whose payload is absent or whose
canonicalization throws have no key and are covered by the hypothesis),
`SmilesHandler::deduplicate` keeps a record iff its key is the first
occurrence of that key scanning indices in increasing order (the computed
keep flags coincide with the spec-side first-occurrence flags), drops the
other duplicates without merging and preserves input order (the output is
a subsequence of the input), and reports as unique count exactly the
number of kept records; on canonical keys `[A,B,A,C,B]` the output keys
are `[A,B,C]` in that order and the unique count is 3. -/
theorem C2_theorem {μ : Type} (molToSmiles : μ → Option String)
    (ds : List (MoleculeRecord μ))
    (hvalid : ∀ r ∈ ds, canonKey molToSmiles r ≠ "") :
    dedupKeepFlags [] (ds.map (canonKey molToSmiles))
        = specKeepFirstOccurrence [] (ds.map (canonKey molToSmiles))
    ∧ (SmilesHandler.deduplicate molToSmiles ds).Sublist ds
    ∧ dedupUniqueCount molToSmiles ds
        = (SmilesHandler.deduplicate molToSmiles ds).length
    ∧ (SmilesHandler.deduplicate scenarioBCanon scenarioBDataset).map
          (canonKey scenarioBCanon) = ["A", "B", "C"]
    ∧ dedupUniqueCount scenarioBCanon scenarioBDataset = 3 := by
  refine ⟨?_, ?_, ?_, ?_, ?_⟩
  · refine dedupKeepFlags_eq_spec _ _ _ ?_ (fun x => Iff.rfl)
    intro k hk
    rcases List.mem_map.mp hk with ⟨r, hr, rfl⟩
    exact hvalid r hr
  · exact maskFilter_sublist _ _
  · unfold dedupUniqueCount SmilesHandler.deduplicate
    rw [maskFilter_length_eq_count]
    rw [dedupKeepFlags_length, List.length_map]
  · rfl
  · rfl

/-- C2, witness: the theorem applied to the Scenario B dataset, every
record of which has a valid canonical key. -/
theorem C2_witness :
    dedupKeepFlags [] (scenarioBDataset.map (canonKey scenarioBCanon))
        = specKeepFirstOccurrence [] (scenarioBDataset.map (canonKey scenarioBCanon))
    ∧ (SmilesHandler.deduplicate scenarioBCanon scenarioBDataset).Sublist scenarioBDataset
    ∧ dedupUniqueCount scenarioBCanon scenarioBDataset
        = (SmilesHandler.deduplicate scenarioBCanon scenarioBDataset).length :=
  let h := C2_theorem scenarioBCanon scenarioBDataset (by decide)
  ⟨h.1, h.2.1, h.2.2.1⟩

/-- C6.  Deduplication is idempotent: the kept records all carry valid,
pairwise distinct canonical keys, so a second `SmilesHandler::deduplicate`
pass keeps every record and returns the dataset unchanged. -/
theorem C6_theorem {μ : Type} (molToSmiles : μ → Option String)
    (ds : List (MoleculeRecord μ)) :
    SmilesHandler.deduplicate molToSmiles (SmilesHandler.deduplicate molToSmiles ds)
      = SmilesHandler.deduplicate molToSmiles ds := by
  have hkout : (SmilesHandler.deduplicate molToSmiles ds).map (canonKey molToSmiles)
      = maskFilter (ds.map (canonKey molToSmiles))
          (dedupKeepFlags [] (ds.map (canonKey molToSmiles))) := by
    unfold SmilesHandler.deduplicate
    exact maskFilter_map _ _ _
  obtain ⟨hmem, hnd⟩ := dedup_kept_keys (ds.map (canonKey molToSmiles)) []
  have hv : ∀ k ∈ (SmilesHandler.deduplicate molToSmiles ds).map (canonKey molToSmiles),
      k ≠ "" ∧ k ∉ ([] : List String) := by
    rw [hkout]; exact hmem
  have hnd2 : ((SmilesHandler.deduplicate molToSmiles ds).map
      (canonKey molToSmiles)).Nodup := by
    rw [hkout]; exact hnd
  show maskFilter (SmilesHandler.deduplicate molToSmiles ds)
      (dedupKeepFlags []
        ((SmilesHandler.deduplicate molToSmiles ds).map (canonKey molToSmiles)))
    = SmilesHandler.deduplicate molToSmiles ds
  rw [dedupKeepFlags_all_true _ _ hv hnd2, List.length_map]
  exact maskFilter_replicate_true _

/-! ## SmilesHandler::generateStereoisomers (src/src/smiles.cpp:647-716) -/

/-- `maxIsomers = 1UL << nCenters` (src/src/smiles.cpp:678) on the 64-bit
`unsigned long`.  For `nCenters ≥ 64` the C++ shift is undefined
behaviour; the model truncates the exact value modulo `2 ^ 64`
(arbitrary-precision shift then wrap). -/
def maxIsomers (nCenters : Nat) : Nat := (1 <<< nCenters) % 2 ^ 64

/-- `isomersToGenerate = min((unsigned long)count, maxIsomers > 0 ?
maxIsomers - 1 : 0)` (src/src/smiles.cpp:679-680). -/
def isomersToGenerate (count nCenters : Nat) : Nat :=
  min count (if 0 < maxIsomers nCenters then maxIsomers nCenters - 1 else 0)

/-- The enumeration loop of `generateStereoisomers`
(src/src/smiles.cpp:688-712) for one input record.  `canonOf k` is the
canonical SMILES RDKit computes for the isomer obtained by applying the
bit pattern of mask `k` as a chirality-inversion mask over the candidate
centers (`canonOf 0` is the original).  The loop walks `i = 1, 2, ...`
while fuel (the remaining counter budget up to `isomersToGenerate`) lasts
and `nGenerated < count`; a mask whose canonical form was already seen is
evaluated but not emitted and does not advance `nGenerated`.  Returns
(masks evaluated, masks emitted as new records).  The C++ loop also tests
`i < maxIsomers`; it is implied: the budget makes `i ≤ isomersToGenerate ≤
maxIsomers - 1` whenever the loop is entered (`maxIsomers = 0` gives a
zero budget). -/
def stereoGo (canonOf : Nat → String) (count : Nat) :
    Nat → Nat → List String → Nat → List Nat × List Nat
  | _, 0, _, _ => ([], [])
  | i, fuel + 1, seen, nGen =>
    if nGen < count then
      if canonOf i ∈ seen then
        (i :: (stereoGo canonOf count (i + 1) fuel seen nGen).1,
          (stereoGo canonOf count (i + 1) fuel seen nGen).2)
      else
        (i :: (stereoGo canonOf count (i + 1) fuel (canonOf i :: seen) (nGen + 1)).1,
          i :: (stereoGo canonOf count (i + 1) fuel (canonOf i :: seen) (nGen + 1)).2)
    else ([], [])

/-- The whole per-record enumeration (src/src/smiles.cpp:676-712): the
seen-set starts with the original's canonical form and the loop starts at
mask 1 with the `isomersToGenerate` budget. -/
def stereoMasks (canonOf : Nat → String) (count nCenters : Nat) :
    List Nat × List Nat :=
  stereoGo canonOf count 1 (isomersToGenerate count nCenters) [canonOf 0] 0

/-- Number of records one input contributes to the new dataset: the
original (src/src/smiles.cpp:651) plus the emitted variants. -/
def generateStereoisomersForRecord (canonOf : Nat → String)
    (count nCenters : Nat) : Nat :=
  1 + (stereoMasks canonOf count nCenters).2.length

lemma stereoGo_eval_mem (canonOf : Nat → String) (count : Nat) :
    ∀ (fuel i : Nat) (seen : List String) (nGen : Nat),
      ∀ k ∈ (stereoGo canonOf count i fuel seen nGen).1, i ≤ k ∧ k < i + fuel := by
  intro fuel
  induction fuel with
  | zero => intro i seen nGen k hk; simp [stereoGo] at hk
  | succ fuel ih =>
    intro i seen nGen k hk
    rw [stereoGo] at hk
    by_cases hn : nGen < count
    · rw [if_pos hn] at hk
      by_cases hs : canonOf i ∈ seen
      · rw [if_pos hs] at hk
        rcases List.mem_cons.mp hk with rfl | hk
        · omega
        · have := ih (i + 1) seen nGen k hk
          omega
      · rw [if_neg hs] at hk
        rcases List.mem_cons.mp hk with rfl | hk
        · omega
        · have := ih (i + 1) (canonOf i :: seen) (nGen + 1) k hk
          omega
    · rw [if_neg hn] at hk
      simp at hk

lemma stereoGo_emit_subset_eval (canonOf : Nat → String) (count : Nat) :
    ∀ (fuel i : Nat) (seen : List String) (nGen : Nat),
      ∀ k ∈ (stereoGo canonOf count i fuel seen nGen).2,
        k ∈ (stereoGo canonOf count i fuel seen nGen).1 := by
  intro fuel
  induction fuel with
  | zero => intro i seen nGen k hk; simp [stereoGo] at hk
  | succ fuel ih =>
    intro i seen nGen k hk
    rw [stereoGo] at hk ⊢
    by_cases hn : nGen < count
    · rw [if_pos hn] at hk ⊢
      by_cases hs : canonOf i ∈ seen
      · rw [if_pos hs] at hk ⊢
        exact List.mem_cons_of_mem _ (ih (i + 1) seen nGen k hk)
      · rw [if_neg hs] at hk ⊢
        rcases List.mem_cons.mp hk with rfl | hk
        · exact List.mem_cons_self _ _
        · exact List.mem_cons_of_mem _
            (ih (i + 1) (canonOf i :: seen) (nGen + 1) k hk)
    · rw [if_neg hn] at hk
      simp at hk

lemma stereoGo_emit_length (canonOf : Nat → String) (count : Nat) :
    ∀ (fuel i : Nat) (seen : List String) (nGen : Nat),
      (stereoGo canonOf count i fuel seen nGen).2.length ≤ count - nGen := by
  intro fuel
  induction fuel with
  | zero => intro i seen nGen; simp [stereoGo]
  | succ fuel ih =>
    intro i seen nGen
    rw [stereoGo]
    by_cases hn : nGen < count
    · rw [if_pos hn]
      by_cases hs : canonOf i ∈ seen
      · rw [if_pos hs]
        exact le_trans (ih (i + 1) seen nGen) (by omega)
      · rw [if_neg hs]
        have := ih (i + 1) (canonOf i :: seen) (nGen + 1)
        simp only [List.length_cons]
        omega
    · rw [if_neg hn]
      simp

lemma stereoGo_emit_le_fuel (canonOf : Nat → String) (count : Nat) :
    ∀ (fuel i : Nat) (seen : List String) (nGen : Nat),
      (stereoGo canonOf count i fuel seen nGen).2.length ≤ fuel := by
  intro fuel
  induction fuel with
  | zero => intro i seen nGen; simp [stereoGo]
  | succ fuel ih =>
    intro i seen nGen
    rw [stereoGo]
    by_cases hn : nGen < count
    · rw [if_pos hn]
      by_cases hs : canonOf i ∈ seen
      · rw [if_pos hs]
        exact le_trans (ih (i + 1) seen nGen) (by omega)
      · rw [if_neg hs]
        simp only [List.length_cons]
        have := ih (i + 1) (canonOf i :: seen) (nGen + 1)
        omega
    · rw [if_neg hn]
      simp

lemma stereoGo_emit_canon_nodup (canonOf : Nat → String) (count : Nat) :
    ∀ (fuel i : Nat) (seen : List String) (nGen : Nat),
      ((stereoGo canonOf count i fuel seen nGen).2.map canonOf).Nodup
      ∧ ∀ s ∈ seen, s ∉ (stereoGo canonOf count i fuel seen nGen).2.map canonOf := by
  intro fuel
  induction fuel with
  | zero => intro i seen nGen; simp [stereoGo]
  | succ fuel ih =>
    intro i seen nGen
    rw [stereoGo]
    by_cases hn : nGen < count
    · rw [if_pos hn]
      by_cases hs : canonOf i ∈ seen
      · rw [if_pos hs]
        exact ih (i + 1) seen nGen
      · rw [if_neg hs]
        obtain ⟨ihnd, ihdis⟩ := ih (i + 1) (canonOf i :: seen) (nGen + 1)
        simp only [List.map_cons]
        constructor
        · exact List.nodup_cons.mpr
            ⟨ihdis (canonOf i) (List.mem_cons_self _ _), ihnd⟩
        · intro s hsx
          rw [List.mem_cons]
          rintro (heq | hmem)
          · exact hs (heq ▸ hsx)
          · exact ihdis s (List.mem_cons_of_mem _ hsx) hmem
    · rw [if_neg hn]
      simp

lemma stereoGo_eval_all (canonOf : Nat → String) (count : Nat) :
    ∀ (fuel i : Nat) (seen : List String) (nGen : Nat), nGen + fuel ≤ count →
      (stereoGo canonOf count i fuel seen nGen).1 = List.range' i fuel := by
  intro fuel
  induction fuel with
  | zero => intro i seen nGen h; simp [stereoGo]
  | succ fuel ih =>
    intro i seen nGen h
    rw [stereoGo, if_pos (by omega)]
    by_cases hs : canonOf i ∈ seen
    · rw [if_pos hs, List.range'_succ, ih (i + 1) seen nGen (by omega)]
    · rw [if_neg hs, List.range'_succ,
        ih (i + 1) (canonOf i :: seen) (nGen + 1) (by omega)]

lemma isomersToGenerate_le (count E : Nat) :
    isomersToGenerate count E ≤ min count (2 ^ E - 1) := by
  unfold isomersToGenerate maxIsomers
  have h1 : (1 <<< E) % 2 ^ 64 ≤ 2 ^ E := by
    calc (1 <<< E) % 2 ^ 64 ≤ 1 <<< E := Nat.mod_le _ _
    _ = 2 ^ E := Nat.one_shiftLeft E
  generalize (1 <<< E) % 2 ^ 64 = a at h1 ⊢
  generalize 2 ^ E = b at h1 ⊢
  split
  · omega
  · omega

/-- C3.  For one input record with `E` candidate tetrahedral sites and
`requestedCount > 0`: every evaluated mask lies in
`1 .. min(requestedCount, 2^E - 1)`; every emitted mask was evaluated; at
most `requestedCount` variants are emitted; the canonical forms of the
emitted variants are pairwise distinct and distinct from the original's
(already-seen forms are skipped without counting); and with `E = 2`,
`requestedCount = 5` exactly the masks 1, 2, 3 are evaluated (no mask ≥ 4)
and at most 4 records (original plus at most 3 variants) are produced. -/
theorem C3_theorem (canonOf : Nat → String) (count E : Nat) (hc : 0 < count) :
    (∀ k ∈ (stereoMasks canonOf count E).1, 1 ≤ k ∧ k ≤ min count (2 ^ E - 1))
    ∧ (∀ k ∈ (stereoMasks canonOf count E).2, k ∈ (stereoMasks canonOf count E).1)
    ∧ (stereoMasks canonOf count E).2.length ≤ count
    ∧ ((stereoMasks canonOf count E).2.map canonOf).Nodup
    ∧ canonOf 0 ∉ (stereoMasks canonOf count E).2.map canonOf
    ∧ (stereoMasks canonOf 5 2).1 = [1, 2, 3]
    ∧ generateStereoisomersForRecord canonOf 5 2 ≤ 4 := by
  refine ⟨?_, ?_, ?_, ?_, ?_, ?_, ?_⟩
  · intro k hk
    have h := stereoGo_eval_mem canonOf count (isomersToGenerate count E) 1
      [canonOf 0] 0 k hk
    have h2 := isomersToGenerate_le count E
    omega
  · exact stereoGo_emit_subset_eval canonOf count _ 1 [canonOf 0] 0
  · unfold stereoMasks
    have := stereoGo_emit_length canonOf count (isomersToGenerate count E) 1
      [canonOf 0] 0
    omega
  · exact (stereoGo_emit_canon_nodup canonOf count _ 1 [canonOf 0] 0).1
  · exact (stereoGo_emit_canon_nodup canonOf count _ 1 [canonOf 0] 0).2
      (canonOf 0) (List.mem_cons_self _ _)
  · have hfuel : isomersToGenerate 5 2 = 3 := by decide
    rw [stereoMasks, hfuel, stereoGo_eval_all canonOf 5 3 1 [canonOf 0] 0 (by omega)]
    rfl
  · unfold generateStereoisomersForRecord stereoMasks
    have hfuel : isomersToGenerate 5 2 = 3 := by decide
    rw [hfuel]
    have := stereoGo_emit_le_fuel canonOf 5 3 1 [canonOf 0] 0
    omega

/-- C3, witness: the theorem applied at a concrete canonical-form function
with `E = 2` and `requestedCount = 5`. -/
theorem C3_witness :
    (∀ k ∈ (stereoMasks (fun k => toString k) 5 2).1,
        1 ≤ k ∧ k ≤ min 5 (2 ^ 2 - 1))
    ∧ (stereoMasks (fun k => toString k) 5 2).1 = [1, 2, 3]
    ∧ generateStereoisomersForRecord (fun k => toString k) 5 2 ≤ 4 :=
  let h := C3_theorem (fun k => toString k) 5 2 (by decide)
  ⟨h.1, h.2.2.2.2.2.1, h.2.2.2.2.2.2⟩

/-- C5, counterexample.  The claim states the generator imposes an
explicit maximum on the number of candidate sites `E`, rejecting or
capping inputs beyond it so that the shift `2^E` cannot overflow.  The
source (src/src/smiles.cpp:676-689) has no such cap: at `E = 64` the
64-bit shift `1UL << 64` overflows (here modelled as wrap, giving 0
instead of the true `2^64 > 0`), and the generator silently proceeds with
a zero budget instead of rejecting or capping the input. -/
theorem C5_counterexample :
    maxIsomers 64 = 0 ∧ 0 < 2 ^ 64 ∧ isomersToGenerate 5 64 = 0 := by
  refine ⟨by decide, by decide, by decide⟩

/-- C5, amended.  No explicit maximum on `E` exists; the only guard is the
runtime test `maxIsomers > 0` after the shift.  For `E ≤ 63` the shift is
exact (no overflow); for `E ≥ 64` it overflows the 64-bit counter
(undefined behaviour in C++, modelled as wrap to 0), after which the
budget is zero and the generator evaluates no masks at all — the input is
processed, not rejected. -/
theorem C5_theorem :
    (∀ E : Nat, E ≤ 63 → maxIsomers E = 2 ^ E)
    ∧ (∀ E : Nat, 64 ≤ E → maxIsomers E = 0)
    ∧ (∀ (canonOf : Nat → String) (count E : Nat), 64 ≤ E →
        (stereoMasks canonOf count E).1 = []) := by
  have hmax0 : ∀ E : Nat, 64 ≤ E → maxIsomers E = 0 := by
    intro E h
    unfold maxIsomers
    rw [Nat.one_shiftLeft]
    have : 2 ^ E = 2 ^ 64 * 2 ^ (E - 64) := by
      rw [← pow_add]
      congr 1
      omega
    rw [this]
    exact Nat.mul_mod_right _ _
  refine ⟨?_, hmax0, ?_⟩
  · intro E h
    unfold maxIsomers
    rw [Nat.one_shiftLeft]
    exact Nat.mod_eq_of_lt (Nat.pow_lt_pow_right (by omega) (by omega))
  · intro canonOf count E h
    rw [stereoMasks, isomersToGenerate, hmax0 E h]
    simp [stereoGo]

/-- C5, witness: the amended theorem applied at `E = 2` and `E = 64`. -/
theorem C5_witness :
    maxIsomers 2 = 2 ^ 2 ∧ maxIsomers 64 = 0
    ∧ (stereoMasks (fun k => toString k) 5 64).1 = [] :=
  ⟨C5_theorem.1 2 (by decide), C5_theorem.2.1 64 (by decide),
    C5_theorem.2.2 _ 5 64 (by decide)⟩

/-! ## FilterHandler::filterByProperty (src/src/filters.cpp:174-210) -/

/-- The per-index keep decision (src/src/filters.cpp:183-195): the
property must exist, `std::stod` must parse it (`stod` is the external C
library parser, `none` = throws), and the value must lie in
`[min, max]`. -/
def filterKeepFlag {μ : Type} (stod : String → Option ℚ) (property : String)
    (mn mx : ℚ) (r : MoleculeRecord μ) : Bool :=
  match r.properties.lookup property with
  | none => false
  | some str =>
    match stod str with
    | none => false
    | some value => decide (mn ≤ value ∧ value ≤ mx)

/-- `FilterHandler::filterByProperty` (src/src/filters.cpp:174-210):
per-index keep flags computed in the parallel phase, then the sequential
index-order gather into the replacement dataset. -/
def FilterHandler.filterByProperty {μ : Type} (stod : String → Option ℚ)
    (dataset : List (MoleculeRecord μ)) (property : String) (mn mx : ℚ) :
    List (MoleculeRecord μ) :=
  maskFilter dataset (dataset.map (filterKeepFlag stod property mn mx))

lemma maskFilter_map_self {α : Type} (p : α → Bool) (xs : List α) :
    maskFilter xs (xs.map p) = xs.filter p := by
  induction xs with
  | nil => rfl
  | cons x xs ih =>
    by_cases h : p x = true
    · simp [maskFilter, List.filter_cons, h, ih]
    · simp [maskFilter, List.filter_cons, h, ih]

/-- C7.  The filter-by-property stage preserves relative order: for every
dataset, property name and bounds, the output is exactly the subsequence
of the input whose records pass the keep decision — a sublist of the
input, so any two retained records appear in the same relative order as in
the input. -/
theorem C7_theorem {μ : Type} (stod : String → Option ℚ)
    (ds : List (MoleculeRecord μ)) (property : String) (mn mx : ℚ) :
    FilterHandler.filterByProperty stod ds property mn mx
        = ds.filter (filterKeepFlag stod property mn mx)
    ∧ (FilterHandler.filterByProperty stod ds property mn mx).Sublist ds := by
  constructor
  · exact maskFilter_map_self _ _
  · exact maskFilter_sublist _ _

/-! ## FilterHandler::sortByProperty (src/src/filters.cpp:212-271) -/

/-- Value extraction (src/src/filters.cpp:224-237): a missing property or
a `std::stod` failure yields NaN, modelled as `none`. -/
def extractValue {μ : Type} (stod : String → Option ℚ) (property : String)
    (r : MoleculeRecord μ) : Option ℚ :=
  match r.properties.lookup property with
  | none => none
  | some s => stod s

/-- The ascending comparator (src/src/filters.cpp:241-248): NaN compares
`false` against everything except that a sole right-side NaN sorts to the
end. -/
def cmpAsc {μ : Type} (a b : Option ℚ × MoleculeRecord μ) : Bool :=
  match a.1, b.1 with
  | none, none => false
  | none, some _ => false
  | some _, none => true
  | some x, some y => decide (x < y)

/-- The descending comparator (src/src/filters.cpp:250-257). -/
def cmpDesc {μ : Type} (a b : Option ℚ × MoleculeRecord μ) : Bool :=
  match a.1, b.1 with
  | none, none => false
  | none, some _ => false
  | some _, none => true
  | some x, some y => decide (y < x)

/-- `std::sort` modelled as an insertion sort: the result is a permutation
of the input, sorted against the strict comparator (no later element
compares strictly before an earlier one).  The order of tied elements is
unspecified for `std::sort`; the model fixes one deterministically. -/
def insertSorted {α : Type} (lt : α → α → Bool) (x : α) : List α → List α
  | [] => [x]
  | y :: ys => if lt x y then x :: y :: ys else y :: insertSorted lt x ys

/-- Full sort by repeated insertion. -/
def sortList {α : Type} (lt : α → α → Bool) : List α → List α
  | [] => []
  | x :: xs => insertSorted lt x (sortList lt xs)

/-- The final gather (src/src/filters.cpp:264-268): only the pairs whose
extracted value is not NaN are appended to the new dataset. -/
def gatherNonNaN {μ : Type} (p : Option ℚ × MoleculeRecord μ) :
    Option (MoleculeRecord μ) :=
  match p.1 with
  | none => none
  | some _ => some p.2

/-- `FilterHandler::sortByProperty` (src/src/filters.cpp:212-271):
extract (value, record) pairs, sort all of them with the NaN-aware
comparator, then gather only the non-NaN entries in sorted order.  The
C++ pairs carry the record's index and the gather reads
`dataset[pair.second]`; the model carries the record itself. -/
def FilterHandler.sortByProperty {μ : Type} (stod : String → Option ℚ)
    (dataset : List (MoleculeRecord μ)) (property : String)
    (ascending : Bool) : List (MoleculeRecord μ) :=
  List.filterMap gatherNonNaN
    (sortList (if ascending then cmpAsc else cmpDesc)
      (dataset.map (fun r => (extractValue stod property r, r))))

lemma insertSorted_perm {α : Type} (lt : α → α → Bool) (x : α) (l : List α) :
    (insertSorted lt x l).Perm (x :: l) := by
  induction l with
  | nil => exact List.Perm.refl _
  | cons y ys ih =>
    by_cases h : lt x y = true
    · rw [insertSorted, if_pos h]
    · rw [insertSorted, if_neg h]
      exact (ih.cons y).trans (List.Perm.swap x y ys)

lemma sortList_perm {α : Type} (lt : α → α → Bool) (l : List α) :
    (sortList lt l).Perm l := by
  induction l with
  | nil => exact List.Perm.refl _
  | cons x xs ih => exact (insertSorted_perm lt x (sortList lt xs)).trans (ih.cons x)

lemma pairwise_insertSorted {α : Type} (lt : α → α → Bool)
    (hasym : ∀ a b, lt a b = true → lt b a = false)
    (htr : ∀ a b c, lt a b = true → lt c b = false → lt c a = false)
    (x : α) (l : List α)
    (h : l.Pairwise (fun a b => lt b a = false)) :
    (insertSorted lt x l).Pairwise (fun a b => lt b a = false) := by
  induction l with
  | nil => simp [insertSorted]
  | cons y ys ih =>
    obtain ⟨hy, hys⟩ := List.pairwise_cons.mp h
    by_cases hxy : lt x y = true
    · rw [insertSorted, if_pos hxy]
      refine List.pairwise_cons.mpr ⟨?_, h⟩
      intro z hz
      rcases List.mem_cons.mp hz with rfl | hz
      · exact hasym x z hxy
      · exact htr x y z hxy (hy z hz)
    · rw [insertSorted, if_neg hxy]
      have hxyf : lt x y = false := by
        revert hxy; cases lt x y <;> simp
      refine List.pairwise_cons.mpr ⟨?_, ih hys⟩
      intro z hz
      have hz2 : z = x ∨ z ∈ ys := by
        have := (insertSorted_perm lt x ys).mem_iff.mp hz
        simpa using this
      rcases hz2 with rfl | hz2
      · exact hxyf
      · exact hy z hz2

lemma pairwise_sortList {α : Type} (lt : α → α → Bool)
    (hasym : ∀ a b, lt a b = true → lt b a = false)
    (htr : ∀ a b c, lt a b = true → lt c b = false → lt c a = false)
    (l : List α) :
    (sortList lt l).Pairwise (fun a b => lt b a = false) := by
  induction l with
  | nil => simp [sortList]
  | cons x xs ih => exact pairwise_insertSorted lt hasym htr x _ ih

lemma cmpAsc_asym {μ : Type} (a b : Option ℚ × MoleculeRecord μ) :
    cmpAsc a b = true → cmpAsc b a = false := by
  rcases a with ⟨a1, ar⟩
  rcases b with ⟨b1, br⟩
  cases a1 <;> cases b1 <;> simp [cmpAsc]
  intro h
  exact le_of_lt h

lemma cmpAsc_htr {μ : Type} (a b c : Option ℚ × MoleculeRecord μ) :
    cmpAsc a b = true → cmpAsc c b = false → cmpAsc c a = false := by
  rcases a with ⟨a1, ar⟩
  rcases b with ⟨b1, br⟩
  rcases c with ⟨c1, cr⟩
  cases a1 <;> cases b1 <;> cases c1 <;> simp [cmpAsc] <;> intros <;> linarith

lemma cmpDesc_asym {μ : Type} (a b : Option ℚ × MoleculeRecord μ) :
    cmpDesc a b = true → cmpDesc b a = false := by
  rcases a with ⟨a1, ar⟩
  rcases b with ⟨b1, br⟩
  cases a1 <;> cases b1 <;> simp [cmpDesc]
  intro h
  exact le_of_lt h

lemma cmpDesc_htr {μ : Type} (a b c : Option ℚ × MoleculeRecord μ) :
    cmpDesc a b = true → cmpDesc c b = false → cmpDesc c a = false := by
  rcases a with ⟨a1, ar⟩
  rcases b with ⟨b1, br⟩
  rcases c with ⟨c1, cr⟩
  cases a1 <;> cases b1 <;> cases c1 <;> simp [cmpDesc] <;> intros <;> linarith

lemma filterMap_pairs {μ : Type} (stod : String → Option ℚ)
    (property : String) (ds : List (MoleculeRecord μ)) :
    List.filterMap gatherNonNaN
        (ds.map (fun r => (extractValue stod property r, r)))
      = ds.filter (fun r => (extractValue stod property r).isSome) := by
  induction ds with
  | nil => rfl
  | cons r ds ih =>
    cases h : extractValue stod property r <;>
      simp [List.filterMap_cons, List.filter_cons, gatherNonNaN, h, ih]

lemma sortPairs_inv {μ : Type} (stod : String → Option ℚ)
    (property : String) (ds : List (MoleculeRecord μ)) (lt) :
    ∀ p ∈ sortList lt (ds.map (fun r => (extractValue stod property r, r))),
      p.1 = extractValue stod property p.2 := by
  intro p hp
  have hmem := (sortList_perm lt _).mem_iff.mp hp
  rcases List.mem_map.mp hmem with ⟨r, hr, rfl⟩
  rfl

lemma gatherNonNaN_eq_some {μ : Type} {p : Option ℚ × MoleculeRecord μ}
    {r : MoleculeRecord μ} (h : gatherNonNaN p = some r) :
    r = p.2 ∧ p.1.isSome = true := by
  rcases p with ⟨p1, p2⟩
  cases p1 with
  | none => simp [gatherNonNaN] at h
  | some v =>
    simp [gatherNonNaN] at h
    exact ⟨h.symm, rfl⟩

/-- A dataset on which sorting shrinks the output: the middle record has
no value for the sorted property. -/
def scenarioSortDataset : List (MoleculeRecord Nat) :=
  [⟨some 0, [("MW", "2")]⟩, ⟨some 1, []⟩, ⟨some 2, [("MW", "1")]⟩]

/-- A concrete `std::stod` behaviour for the scenario values. -/
def scenarioStod : String → Option ℚ :=
  fun s => if s = "1" then some 1 else if s = "2" then some 2 else none

lemma sortByProperty_perm {μ : Type} (stod : String → Option ℚ)
    (ds : List (MoleculeRecord μ)) (property : String) (ascending : Bool) :
    (FilterHandler.sortByProperty stod ds property ascending).Perm
      (ds.filter (fun r => (extractValue stod property r).isSome)) := by
  unfold FilterHandler.sortByProperty
  refine (List.Perm.filterMap gatherNonNaN (sortList_perm _ _)).trans ?_
  rw [filterMap_pairs]

lemma sortByProperty_isSome {μ : Type} (stod : String → Option ℚ)
    (ds : List (MoleculeRecord μ)) (property : String) (ascending : Bool) :
    ∀ r ∈ FilterHandler.sortByProperty stod ds property ascending,
      (extractValue stod property r).isSome = true := by
  intro r hr
  unfold FilterHandler.sortByProperty at hr
  rcases List.mem_filterMap.mp hr with ⟨p, hp, hgp⟩
  obtain ⟨hr2, hsome⟩ := gatherNonNaN_eq_some hgp
  have hinv := sortPairs_inv stod property ds _ p hp
  rw [hr2, ← hinv]
  exact hsome

lemma cmpAsc_eval {μ : Type} {a b : Option ℚ × MoleculeRecord μ} {x y : ℚ}
    (ha : a.1 = some x) (hb : b.1 = some y) : cmpAsc a b = decide (x < y) := by
  rcases a with ⟨a1, ar⟩
  rcases b with ⟨b1, br⟩
  rw [show a1 = some x from ha, show b1 = some y from hb]
  rfl

lemma cmpDesc_eval {μ : Type} {a b : Option ℚ × MoleculeRecord μ} {x y : ℚ}
    (ha : a.1 = some x) (hb : b.1 = some y) : cmpDesc a b = decide (y < x) := by
  rcases a with ⟨a1, ar⟩
  rcases b with ⟨b1, br⟩
  rw [show a1 = some x from ha, show b1 = some y from hb]
  rfl

lemma sortByProperty_sorted_asc {μ : Type} (stod : String → Option ℚ)
    (ds : List (MoleculeRecord μ)) (property : String) :
    (FilterHandler.sortByProperty stod ds property true).Pairwise
      (fun r s => ∀ x y, extractValue stod property r = some x →
        extractValue stod property s = some y → x ≤ y) := by
  have hpw := pairwise_sortList cmpAsc cmpAsc_asym cmpAsc_htr
      (ds.map (fun r => (extractValue stod property r, r)))
  have hinv := sortPairs_inv stod property ds cmpAsc
  have hpw2 : (sortList cmpAsc
      (ds.map (fun r => (extractValue stod property r, r)))).Pairwise
      (fun p q => ∀ x y, extractValue stod property p.2 = some x →
        extractValue stod property q.2 = some y → x ≤ y) := by
    refine hpw.imp_of_mem ?_
    intro p q hp hq hle x y hx hy
    have hp1 : p.1 = some x := (hinv p hp).trans hx
    have hq1 : q.1 = some y := (hinv q hq).trans hy
    rw [cmpAsc_eval hq1 hp1] at hle
    exact le_of_not_lt (by simpa using hle)
  show (List.filterMap gatherNonNaN (sortList cmpAsc
      (ds.map (fun r => (extractValue stod property r, r))))).Pairwise _
  refine List.Pairwise.filterMap gatherNonNaN ?_ hpw2
  intro p q hR r hr s hs
  obtain ⟨hr2, _⟩ := gatherNonNaN_eq_some (Option.mem_def.mp hr)
  obtain ⟨hs2, _⟩ := gatherNonNaN_eq_some (Option.mem_def.mp hs)
  rw [hr2, hs2]
  exact hR

lemma sortByProperty_sorted_desc {μ : Type} (stod : String → Option ℚ)
    (ds : List (MoleculeRecord μ)) (property : String) :
    (FilterHandler.sortByProperty stod ds property false).Pairwise
      (fun r s => ∀ x y, extractValue stod property r = some x →
        extractValue stod property s = some y → y ≤ x) := by
  have hpw := pairwise_sortList cmpDesc cmpDesc_asym cmpDesc_htr
      (ds.map (fun r => (extractValue stod property r, r)))
  have hinv := sortPairs_inv stod property ds cmpDesc
  have hpw2 : (sortList cmpDesc
      (ds.map (fun r => (extractValue stod property r, r)))).Pairwise
      (fun p q => ∀ x y, extractValue stod property p.2 = some x →
        extractValue stod property q.2 = some y → y ≤ x) := by
    refine hpw.imp_of_mem ?_
    intro p q hp hq hle x y hx hy
    have hp1 : p.1 = some x := (hinv p hp).trans hx
    have hq1 : q.1 = some y := (hinv q hq).trans hy
    rw [cmpDesc_eval hq1 hp1] at hle
    exact le_of_not_lt (by simpa using hle)
  show (List.filterMap gatherNonNaN (sortList cmpDesc
      (ds.map (fun r => (extractValue stod property r, r))))).Pairwise _
  refine List.Pairwise.filterMap gatherNonNaN ?_ hpw2
  intro p q hR r hr s hs
  obtain ⟨hr2, _⟩ := gatherNonNaN_eq_some (Option.mem_def.mp hr)
  obtain ⟨hs2, _⟩ := gatherNonNaN_eq_some (Option.mem_def.mp hs)
  rw [hr2, hs2]
  exact hR

/-- C10.  The sort-by-property stage does not merely reorder: in both
directions the output is a permutation of exactly those input records
whose named property exists and parses to a number (every record with a
missing or unparseable value is omitted, so sorting can shrink the
dataset — the concrete 3-record dataset shrinks to 2), every output
record carries a parseable value, and the output values are in sorted
order. -/
theorem C10_theorem {μ : Type} (stod : String → Option ℚ)
    (ds : List (MoleculeRecord μ)) (property : String) :
    (FilterHandler.sortByProperty stod ds property true).Perm
        (ds.filter (fun r => (extractValue stod property r).isSome))
    ∧ (∀ r ∈ FilterHandler.sortByProperty stod ds property true,
        (extractValue stod property r).isSome = true)
    ∧ (FilterHandler.sortByProperty stod ds property true).Pairwise
        (fun r s => ∀ x y, extractValue stod property r = some x →
          extractValue stod property s = some y → x ≤ y)
    ∧ (FilterHandler.sortByProperty stod ds property false).Perm
        (ds.filter (fun r => (extractValue stod property r).isSome))
    ∧ (FilterHandler.sortByProperty stod ds property false).Pairwise
        (fun r s => ∀ x y, extractValue stod property r = some x →
          extractValue stod property s = some y → y ≤ x)
    ∧ FilterHandler.sortByProperty scenarioStod scenarioSortDataset "MW" true
        = [⟨some 2, [("MW", "1")]⟩, ⟨some 0, [("MW", "2")]⟩]
    ∧ scenarioSortDataset.length = 3 :=
  ⟨sortByProperty_perm stod ds property true,
   sortByProperty_isSome stod ds property true,
   sortByProperty_sorted_asc stod ds property,
   sortByProperty_perm stod ds property false,
   sortByProperty_sorted_desc stod ds property,
   by decide,
   rfl⟩

/-! ## ConformerHandler::minimizeEnergy (src/src/conformers.cpp:266-372) -/

/-- The force-field portion of the loop body
(src/src/conformers.cpp:312-360).  `uff`/`mmff` model the two external
minimization attempts on the embedded molecule (`none` = null force field
or a throw); `ffContainsUFF`/`ffContainsMMFF` model the
`forcefield.find(...) != npos` tests.  The MMFF guard
`!success && (contains MMFF || !success)` collapses to `!success`, so MMFF
is attempted whenever UFF did not succeed, whatever the forcefield
name. -/
def runForceFields {μ : Type} (ffContainsUFF ffContainsMMFF : Bool)
    (uff mmff : μ → Option μ) (m : μ) : Option μ :=
  match (if ffContainsUFF then uff m else none) with
  | some m2 => some m2
  | none => if ffContainsMMFF || true then mmff m else none

/-- The per-record body of the sequential `minimizeEnergy` loop
(src/src/conformers.cpp:272-367): a record with no payload is skipped; if
the molecule has no conformer, one is embedded (`embed`, `none` =
`confId < 0` or a throw, which `continue`s leaving the slot unchanged);
then minimization runs and the slot is overwritten with the minimized
molecule on success or kept at the embedded state on failure
("Keep the molecule even if minimization failed",
src/src/conformers.cpp:362-363). -/
def minimizeOneRecord {μ : Type} (hasConf : μ → Bool) (embed : μ → Option μ)
    (ffContainsUFF ffContainsMMFF : Bool) (uff mmff : μ → Option μ)
    (r : MoleculeRecord μ) : MoleculeRecord μ :=
  match r.mol with
  | none => r
  | some m =>
    match (if hasConf m then some m else embed m) with
    | none => r
    | some m2 =>
      match runForceFields ffContainsUFF ffContainsMMFF uff mmff m2 with
      | some m3 => { r with mol := some m3 }
      | none => { r with mol := some m2 }

/-- `ConformerHandler::minimizeEnergy` (src/src/conformers.cpp:266-372):
the sequential in-place pass over the dataset. -/
def ConformerHandler.minimizeEnergy {μ : Type} (hasConf : μ → Bool)
    (embed : μ → Option μ) (ffContainsUFF ffContainsMMFF : Bool)
    (uff mmff : μ → Option μ) (dataset : List (MoleculeRecord μ)) :
    List (MoleculeRecord μ) :=
  dataset.map (minimizeOneRecord hasConf embed ffContainsUFF ffContainsMMFF uff mmff)

/-- C8.  In the compound minimize-energy stage (embed a conformer, then
minimize), a record is never discarded: the stage preserves the dataset
length, every record keeps its attributes and its payload presence, and
when the later minimization sub-step fails on a record whose embedding
succeeded, the slot keeps the record with the embedded state — its last
successfully-computed state; when even the embedding fails, the slot keeps
the record unchanged. -/
theorem C8_theorem {μ : Type} (hasConf : μ → Bool) (embed : μ → Option μ)
    (fU fM : Bool) (uff mmff : μ → Option μ) (ds : List (MoleculeRecord μ)) :
    (ConformerHandler.minimizeEnergy hasConf embed fU fM uff mmff ds).length
        = ds.length
    ∧ (∀ r : MoleculeRecord μ,
        (minimizeOneRecord hasConf embed fU fM uff mmff r).properties
          = r.properties)
    ∧ (∀ r : MoleculeRecord μ, r.mol.isSome = true →
        (minimizeOneRecord hasConf embed fU fM uff mmff r).mol.isSome = true)
    ∧ (∀ (r : MoleculeRecord μ) (m m2 : μ), r.mol = some m →
        hasConf m = false → embed m = some m2 →
        runForceFields fU fM uff mmff m2 = none →
        minimizeOneRecord hasConf embed fU fM uff mmff r
          = { r with mol := some m2 })
    ∧ (∀ (r : MoleculeRecord μ) (m : μ), r.mol = some m →
        hasConf m = false → embed m = none →
        minimizeOneRecord hasConf embed fU fM uff mmff r = r) := by
  refine ⟨List.length_map _ _, ?_, ?_, ?_, ?_⟩
  · intro r
    rcases r with ⟨mol, props⟩
    cases mol with
    | none => rfl
    | some m =>
      cases he : (if hasConf m then some m else embed m) with
      | none => simp [minimizeOneRecord, he]
      | some m2 =>
        cases hf : runForceFields fU fM uff mmff m2 with
        | none => simp [minimizeOneRecord, he, hf]
        | some m3 => simp [minimizeOneRecord, he, hf]
  · intro r hr
    rcases r with ⟨mol, props⟩
    cases mol with
    | none => simpa using hr
    | some m =>
      cases he : (if hasConf m then some m else embed m) with
      | none => simpa [minimizeOneRecord, he] using hr
      | some m2 =>
        cases hf : runForceFields fU fM uff mmff m2 with
        | none => simp [minimizeOneRecord, he, hf]
        | some m3 => simp [minimizeOneRecord, he, hf]
  · intro r m m2 hm hc he hf
    rcases r with ⟨mol, props⟩
    obtain rfl : mol = some m := hm
    simp [minimizeOneRecord, hc, he, hf]
  · intro r m hm hc he
    rcases r with ⟨mol, props⟩
    obtain rfl : mol = some m := hm
    simp [minimizeOneRecord, hc, he]

/-- C8, witness: the theorem applied at a concrete record whose embedding
succeeds and whose minimization fails. -/
theorem C8_witness :
    minimizeOneRecord (fun _ => false) (fun m => some (m + 1)) true true
        (fun _ => none) (fun _ => none)
        (⟨some 0, [("SMILES", "C")]⟩ : MoleculeRecord Nat)
      = ⟨some 1, [("SMILES", "C")]⟩
    ∧ minimizeOneRecord (fun _ => false) (fun _ => none) true true
        (fun _ => none) (fun _ => none)
        (⟨some 0, [("SMILES", "C")]⟩ : MoleculeRecord Nat)
      = ⟨some 0, [("SMILES", "C")]⟩ :=
  let h := C8_theorem (fun _ => false) (fun m : Nat => some (m + 1)) true true
    (fun _ => none) (fun _ => none) []
  let h2 := C8_theorem (fun _ => false) (fun _ : Nat => none) true true
    (fun _ => none) (fun _ => none) []
  ⟨h.2.2.2.1 ⟨some 0, [("SMILES", "C")]⟩ 0 1 rfl rfl rfl rfl,
   h2.2.2.2.2 ⟨some 0, [("SMILES", "C")]⟩ 0 rfl rfl rfl⟩

/-! ## DataHandler::loadCSV (src/src/data.cpp:274-397) -/

/-- The loader's two shared containers (src/src/data.cpp:276, and the
`dataset` being built): the lock-guarded parsed-results buffer and the
final dataset it is periodically flushed into. -/
structure LoadState (μ : Type) where
  records : List (MoleculeRecord μ)
  dataset : List (MoleculeRecord μ)
deriving DecidableEq, Repr

/-- `CHUNK_SIZE` (src/src/data.cpp:275). -/
def CHUNK_SIZE : Nat := 10000

/-- One SMILES column of the per-line callback
(src/src/data.cpp:323-367): an out-of-range column or empty cell is
skipped; `smilesToMol` models the external `SmilesToMol` + sanitization
chain (`none` = null molecule or either step throwing, a counted
warning); a successful parse yields one record carrying the payload and
every column as a property. -/
def parseOneColumn {μ : Type} (smilesToMol : String → Option μ)
    (columnNames values : List String) (c : Nat) : List (MoleculeRecord μ) :=
  if h : c < values.length then
    if values.get ⟨c, h⟩ = "" then []
    else
      match smilesToMol (values.get ⟨c, h⟩) with
      | none => []
      | some m => [⟨some m, columnNames.zip values⟩]
  else []

/-- The per-line callback (src/src/data.cpp:301-374) on a line already
split into its delimiter-separated fields: a line with the wrong number of
columns is skipped with a warning; otherwise every configured SMILES
column contributes at most one record, in column order. -/
def parseLineRecords {μ : Type} (smilesToMol : String → Option μ)
    (columnNames : List String) (smilesColumns : List Nat)
    (values : List String) : List (MoleculeRecord μ) :=
  if values.length ≠ columnNames.length then []
  else smilesColumns.flatMap (parseOneColumn smilesToMol columnNames values)

/-- One chunk iteration of the load loop (src/src/data.cpp:292-390): the
chunk's lines are parsed (each per-index callback appends its records to
the shared buffer inside the critical section, so after the parallel phase
the buffer holds the old contents plus every line's records), then the
flush check runs: a buffer above `2 × chunkSize` is appended to the final
dataset and cleared. -/
def loadChunkStep {μ : Type} (chunkSize : Nat)
    (parseLine : List String → List (MoleculeRecord μ))
    (st : LoadState μ) (chunk : List (List String)) : LoadState μ :=
  let newRecords := st.records ++ chunk.flatMap parseLine
  if newRecords.length > chunkSize * 2 then
    ⟨[], st.dataset ++ newRecords⟩
  else
    ⟨newRecords, st.dataset⟩

/-- `DataHandler::loadCSV` (src/src/data.cpp:274-397) after the header
processing: the raw lines arrive pre-split into field lists and grouped
into the chunks the reader loop forms (full chunks of `CHUNK_SIZE` lines
plus a trailing partial chunk); each chunk iteration parses and flushes as
above, and the leftover buffer is appended at the end
(src/src/data.cpp:396). -/
def DataHandler.loadCSV {μ : Type} (smilesToMol : String → Option μ)
    (columnNames : List String) (smilesColumns : List Nat)
    (chunks : List (List (List String))) : List (MoleculeRecord μ) :=
  let final := chunks.foldl
    (loadChunkStep CHUNK_SIZE
      (parseLineRecords smilesToMol columnNames smilesColumns))
    ⟨[], []⟩
  final.dataset ++ final.records

lemma loadCSV_conserves {μ : Type} (chunkSize : Nat)
    (parseLine : List String → List (MoleculeRecord μ)) :
    ∀ (chunks : List (List (List String))) (st : LoadState μ),
      (chunks.foldl (loadChunkStep chunkSize parseLine) st).dataset
          ++ (chunks.foldl (loadChunkStep chunkSize parseLine) st).records
        = st.dataset ++ st.records
            ++ chunks.flatMap (fun c => c.flatMap parseLine) := by
  intro chunks
  induction chunks with
  | nil => intro st; simp
  | cons c cs ih =>
    intro st
    rw [List.foldl_cons, ih]
    simp only [loadChunkStep]
    by_cases h : (st.records ++ c.flatMap parseLine).length > chunkSize * 2
    · rw [if_pos h]
      simp [List.append_assoc]
    · rw [if_neg h]
      simp [List.append_assoc]

/-- C9.  The chunked loader's flush invariant: whenever the shared
parsed-results buffer exceeds `2 × chunkSize` records at the per-chunk
flush check, it is appended to the final dataset and cleared; therefore
after every chunk iteration the unflushed buffer holds at most
`2 × chunkSize` records; and the flushing loses, duplicates and reorders
nothing — the loaded dataset is exactly the concatenation of every
chunk's parsed records in input order. -/
theorem C9_theorem {μ : Type} (chunkSize : Nat)
    (parseLine : List String → List (MoleculeRecord μ)) :
    (∀ (st : LoadState μ) (chunk : List (List String)),
        (st.records ++ chunk.flatMap parseLine).length > chunkSize * 2 →
          loadChunkStep chunkSize parseLine st chunk
            = ⟨[], st.dataset ++ (st.records ++ chunk.flatMap parseLine)⟩)
    ∧ (∀ (st : LoadState μ) (chunk : List (List String)),
        (loadChunkStep chunkSize parseLine st chunk).records.length
          ≤ chunkSize * 2)
    ∧ (∀ (smilesToMol : String → Option μ) (columnNames : List String)
        (smilesColumns : List Nat) (chunks : List (List (List String))),
        DataHandler.loadCSV smilesToMol columnNames smilesColumns chunks
          = chunks.flatMap (fun c => c.flatMap
              (parseLineRecords smilesToMol columnNames smilesColumns))) := by
  refine ⟨?_, ?_, ?_⟩
  · intro st chunk h
    unfold loadChunkStep
    rw [if_pos h]
  · intro st chunk
    unfold loadChunkStep
    by_cases h : (st.records ++ chunk.flatMap parseLine).length > chunkSize * 2
    · rw [if_pos h]
      simp
    · rw [if_neg h]
      show (st.records ++ chunk.flatMap parseLine).length ≤ chunkSize * 2
      omega
  · intro smilesToMol columnNames smilesColumns chunks
    unfold DataHandler.loadCSV
    rw [loadCSV_conserves]
    simp

/-- C9, witness: the flush branch taken at a concrete state whose buffer
exceeds the bound. -/
theorem C9_witness :
    loadChunkStep 0 (fun _ => [(⟨some 0, []⟩ : MoleculeRecord Nat)])
        ⟨[], []⟩ [["x"]]
      = ⟨[], [] ++ ([] ++ [["x"]].flatMap (fun _ => [⟨some 0, []⟩]))⟩
    ∧ (loadChunkStep 0 (fun _ => [(⟨some 0, []⟩ : MoleculeRecord Nat)])
        ⟨[], []⟩ [["x"]]).records.length ≤ 0 * 2 :=
  let h := C9_theorem 0 (fun _ => [(⟨some 0, []⟩ : MoleculeRecord Nat)])
  ⟨h.1 ⟨[], []⟩ [["x"]] (by decide), h.2.1 ⟨[], []⟩ [["x"]]⟩
